import Mathlib

/-!
Verification development for a GLL (Generalised LL) parser written in Python
(`grammar.py` + `parser.py`).  The definitions below are a shallow embedding of
the Python source:

* Python `set` values are embedded as `List` with insertion guarded by
  membership (`pyAdd`), so that list length coincides with Python `len(set)`.
* Python `dict` values (including `defaultdict`) are embedded as association
  lists in insertion order; `len(dict)` is the list length.  The `defaultdict`
  "lookup creates the key" behaviour is embedded by `dGetIns`.
* The module-level `closure` combinator iterates a step function until the
  size watermark stops growing; it is embedded by `pyClosure` with an explicit
  fuel argument (the fuel used in concrete evaluations is always far larger
  than the number of iterations the Python loop performs on those inputs, and
  the loop stops early exactly when the Python loop stops).
* Python exceptions (`NameError` from the unresolved free variable
  `followMap` inside `GrammarPredictor.testSelect`, `ValueError`,
  `IndexError`, `AttributeError`) are embedded with `Except PErr`.
-/

/-- Symbols of the grammar: `NonTerm(name)`, `Term(name)` and `Epsilon`,
value-equal by variant + name, as in the Python dataclasses. -/
inductive Symb where
  | nt  : String → Symb
  | tm  : String → Symb
  | eps : Symb
deriving DecidableEq, Repr

/-- `isTerm` from `grammar.py`. -/
def isTm : Symb → Bool
  | .tm _ => true
  | _ => false

/-- `isNonTerm` from `grammar.py`. -/
def isNt : Symb → Bool
  | .nt _ => true
  | _ => false

/-- Python `set.add`: append the element only when it is not already present,
so list length tracks Python `len`. -/
def pyAdd {α : Type} [DecidableEq α] (l : List α) (a : α) : List α :=
  if a ∈ l then l else l ++ [a]

/-- Python `set.update`: fold `pyAdd` over the added elements. -/
def pyUnion {α : Type} [DecidableEq α] (l : List α) (xs : List α) : List α :=
  xs.foldl pyAdd l

/-- Python set difference `s - t`. -/
def pyDiff {α : Type} [DecidableEq α] (l : List α) (xs : List α) : List α :=
  l.filter (fun a => a ∉ xs)

/-- Association-list lookup (Python `dict.get(k)` / `k in dict`). -/
def dGet {κ ν : Type} [DecidableEq κ] : List (κ × ν) → κ → Option ν
  | [], _ => none
  | (k, v) :: rest, key => if k = key then some v else dGet rest key

/-- Python `dict.get(k, dflt)` / `defaultdict` read without key creation. -/
def dGetD {κ ν : Type} [DecidableEq κ] (m : List (κ × ν)) (key : κ) (dflt : ν) : ν :=
  (dGet m key).getD dflt

/-- Python `dict[k] = v`: update in place when the key exists, otherwise append
(the new key goes to the end of the insertion order). -/
def dSet {κ ν : Type} [DecidableEq κ] : List (κ × ν) → κ → ν → List (κ × ν)
  | [], key, v => [(key, v)]
  | (k, w) :: rest, key, v =>
      if k = key then (k, v) :: rest else (k, w) :: dSet rest key v

/-- Python `defaultdict.__getitem__`: return the stored value, or insert and
return the default when the key is absent. -/
def dGetIns {κ ν : Type} [DecidableEq κ] (m : List (κ × ν)) (key : κ) (dflt : ν) :
    ν × List (κ × ν) :=
  match dGet m key with
  | some v => (v, m)
  | none => (dflt, m ++ [(key, dflt)])

/-- A grammar: a start nonterminal and `ruleDict`, mapping each nonterminal
name to the list of its right-hand sides (`Grammar` in `grammar.py`; the
Python `set` of rhs tuples is embedded as a duplicate-free list in insertion
order). -/
structure Grammar where
  start : String
  ruleDict : List (String × List (List Symb))
deriving DecidableEq, Repr

/-- The body of the Python `closure(f, inc)` combinator: iterate `s ← f s`
while the size watermark keeps growing strictly (`check(size, newsize)` is
`size < newsize` for both flavours of the source).  `fuel` bounds the number
of remaining iterations; the Python loop always runs `f` at least once, which
is why the fuel-0 case still applies `f`. -/
def pyClosure {α : Type} (f : α → α) (size : α → Nat) : Nat → α → α
  | 0, s => f s
  | fuel + 1, s =>
      let s1 := f s
      if size s < size s1 then pyClosure f size fuel s1 else s1

/-- `productive_rule` from `grammar.py`: every symbol of the rhs is a terminal
or already productive. -/
def productiveRule (rule : List Symb) (p : List String) : Bool :=
  rule.all (fun s =>
    match s with
    | .tm _ => true
    | .nt m => decide (m ∈ p)
    | .eps => false)

/-- `_productive_1` from `grammar.py`: one pass over the rule dictionary. -/
def productiveStep (g : Grammar) (p : List String) : List String :=
  g.ruleDict.foldl
    (fun p nr =>
      if nr.1 ∈ p then p
      else if nr.2.any (fun rule => productiveRule rule p) then pyAdd p nr.1 else p)
    p

/-- `productive` from `grammar.py` (`closure(_productive_1, True)` applied to
the empty set). -/
def productiveF (fuel : Nat) (g : Grammar) : List String :=
  pyClosure (productiveStep g) List.length fuel []

/-- `_reachable_1` from `grammar.py`: add every nonterminal mentioned in a rhs
of an already-reachable nonterminal. -/
def reachableStep (g : Grammar) (r : List String) : List String :=
  g.ruleDict.foldl
    (fun r nr =>
      if nr.1 ∈ r then
        nr.2.foldl
          (fun r rule =>
            rule.foldl
              (fun r s =>
                match s with
                | Symb.nt m => pyAdd r m
                | _ => r)
              r)
          r
      else r)
    r

/-- `reachable` from `grammar.py` (closure starting from `{ g.start }`). -/
def reachableF (fuel : Nat) (g : Grammar) : List String :=
  pyClosure (reachableStep g) List.length fuel [g.start]

/-- `_nullable_1` from `grammar.py`: a nonterminal is added when some rhs
consists only of already-nullable nonterminals (vacuously, the empty rhs). -/
def nullableStep (g : Grammar) (null : List String) : List String :=
  g.ruleDict.foldl
    (fun null nr =>
      if nr.1 ∈ null then null
      else if nr.2.any (fun rule =>
          rule.all (fun s =>
            match s with
            | Symb.nt m => decide (m ∈ null)
            | _ => false)) then
        pyAdd null nr.1
      else null)
    null

/-- `nullable` from `grammar.py`. -/
def nullableF (fuel : Nat) (g : Grammar) : List String :=
  pyClosure (nullableStep g) List.length fuel []

/-- `shrink_rules` from `grammar.py`: keep the rhs whose nonterminal symbols
all lie in `p`. -/
def shrinkRules (rules : List (List Symb)) (p : List String) : List (List Symb) :=
  rules.foldl
    (fun res rule =>
      if rule.any (fun s =>
          match s with
          | Symb.nt m => decide (m ∉ p)
          | _ => false) then res
      else pyAdd res rule)
    []

/-- `shrink` from `grammar.py`: keep only the keys in `p` and shrink each
retained rule set. -/
def shrinkG (g : Grammar) (p : List String) : Grammar :=
  { start := g.start,
    ruleDict := g.ruleDict.filterMap
      (fun nr => if nr.1 ∈ p then some (nr.1, shrinkRules nr.2 p) else none) }

/-- `preprocess` from `grammar.py`, verbatim: it computes the productive
pruning `g1` and the reachable pruning `g2` and then returns the ORIGINAL
grammar `g` (this is what the shipped source does; `g2` is discarded). -/
def preprocessF (fuel : Nat) (g : Grammar) : Grammar :=
  let p := productiveF fuel g
  let g1 := shrinkG g p
  let r := reachableF fuel g1
  let g2 := shrinkG g1 r
  let _ := g2
  g

/-- FIRST maps: Python `defaultdict(set)` keyed by symbols (the keys created
by `buildFirst` are nonterminals, but `defaultdict` lookups can create other
keys, so the key type is `Symb`). -/
abbrev FMap := List (Symb × List Symb)

/-- The loop body of `first(firstMap, word)` from `grammar.py`, with the
accumulator `firstWord` and the `defaultdict` key-creating lookups made
explicit.  Returns the computed set together with the (possibly key-extended)
map. -/
def firstDgo : FMap → List Symb → List Symb → List Symb × FMap
  | fm, acc, [] => (pyAdd acc Symb.eps, fm)
  | fm, acc, sym :: rest =>
    match sym with
    | Symb.tm t => (pyAdd acc (Symb.tm t), fm)
    | Symb.nt m =>
        let p := dGetIns fm (Symb.nt m) []
        if Symb.eps ∈ p.1 then
          firstDgo p.2 (pyUnion acc (pyDiff p.1 [Symb.eps])) rest
        else (pyUnion acc (pyDiff p.1 [Symb.eps]), p.2)
    | Symb.eps =>
        let p := dGetIns fm Symb.eps []
        if Symb.eps ∈ p.1 then
          firstDgo p.2 (pyUnion acc (pyDiff p.1 [Symb.eps])) rest
        else (pyUnion acc (pyDiff p.1 [Symb.eps]), p.2)

/-- `first(firstMap, word)` from `grammar.py`: the value it returns. -/
def firstF (fm : FMap) (word : List Symb) : List Symb :=
  (firstDgo fm [] word).1

/-- `_buildFirst1` from `grammar.py`: for every rule, ASSIGN
`firstMap[n] = first(firstMap, rule)` (note: assignment, not union — each rule
overwrites the previous one). -/
def buildFirstStep (g : Grammar) (fm : FMap) : FMap :=
  g.ruleDict.foldl
    (fun fm nr =>
      nr.2.foldl
        (fun fm rule =>
          let rf := firstDgo fm [] rule
          dSet rf.2 (Symb.nt nr.1) rf.1)
        fm)
    fm

/-- `buildFirst` from `grammar.py`: the closure combinator applied to
`_buildFirst1` starting from an empty `defaultdict(set)`; the size watermark
of the closure loop is the NUMBER OF KEYS of the dict. -/
def buildFirstF (fuel : Nat) (g : Grammar) : FMap :=
  pyClosure (buildFirstStep g) List.length fuel []

/-- The inner pair loop of `_buildFollow1` (`for i in range(len(rule)-1)`):
walk adjacent pairs `curr, nxt`; skip terminals on the left; add the terminal
or `FIRST(nxt) - {ε}` to `follow[curr]`. -/
def followPairs (fstM : FMap) : FMap → List Symb → FMap
  | m, a :: b :: rest =>
      let m1 :=
        if isTm a then m
        else
          match b with
          | Symb.tm t =>
              let p := dGetIns m a []
              dSet p.2 a (pyAdd p.1 (Symb.tm t))
          | bb =>
              let p := dGetIns m a []
              dSet p.2 a (pyUnion p.1 (pyDiff (dGetD fstM bb []) [Symb.eps]))
      followPairs fstM m1 (b :: rest)
  | m, _ => m

/-- The last-symbol step of `_buildFollow1`: if the rule ends in a nonterminal
`last`, do `follow[last].update(follow[n])` (both `defaultdict` lookups create
their keys when absent, `follow[last]` first). -/
def followLast (m : FMap) (n : String) (rule : List Symb) : FMap :=
  match rule.getLast? with
  | some (Symb.nt last) =>
      let p1 := dGetIns m (Symb.nt last) []
      let p2 := dGetIns p1.2 (Symb.nt n) []
      dSet p2.2 (Symb.nt last) (pyUnion p1.1 p2.1)
  | _ => m

/-- `_buildFollow1` from `grammar.py`: one pass over all rules (empty rules
are skipped). -/
def buildFollowStep (g : Grammar) (fstM : FMap) (m : FMap) : FMap :=
  g.ruleDict.foldl
    (fun m nr =>
      nr.2.foldl
        (fun m rule =>
          if rule.length = 0 then m
          else followLast (followPairs fstM m rule) nr.1 rule)
        m)
    m

/-- `buildFollow` from `grammar.py`: seed `follow[start] = {end}` and close
under `_buildFollow1` (size watermark = number of keys). -/
def buildFollowF (fuel : Nat) (g : Grammar) (fstM : FMap) (endTm : Symb) : FMap :=
  pyClosure (buildFollowStep g fstM) List.length fuel [(Symb.nt g.start, [endTm])]

/-- The Python exception kinds the embedded code can raise. -/
inductive PErr where
  | nameError
  | valueError
  | indexError
  | attrError
deriving DecidableEq, Repr

/-- `GrammarPredictor`: grammar after `preprocess`, the FIRST map, the FOLLOW
map and the end-of-input terminal. -/
structure Predictor where
  grammar : Grammar
  firstMap : FMap
  followMap : FMap
  endTm : Symb
deriving DecidableEq, Repr

/-- `GrammarPredictor.__init__`. -/
def mkPredictor (fuel : Nat) (g : Grammar) (endTm : Symb) : Predictor :=
  let g2 := preprocessF fuel g
  let fm := buildFirstF fuel g2
  { grammar := g2, firstMap := fm,
    followMap := buildFollowF fuel g2 fm endTm, endTm := endTm }

/-- `GrammarPredictor.testSelect(term, nonterm, word)`, verbatim from the
source: `term in wordFirst` short-circuits to `True`; otherwise, when
`Epsilon() in wordFirst`, the source evaluates `followMap[nonterm]` where
`followMap` is an UNBOUND free variable (the field is `self.followMap`), so
the call raises `NameError`; otherwise the `and` short-circuits to `False`. -/
def testSelect (P : Predictor) (t : Symb) (n : String) (word : List Symb) :
    Except PErr Bool :=
  let wordFirst := firstF P.firstMap word
  if t ∈ wordFirst then Except.ok true
  else if Symb.eps ∈ wordFirst then Except.error PErr.nameError
  else
    let _ := n
    Except.ok false

/-- The grammar `S := "a"; D := D` of spec scenario S6. -/
def gS6 : Grammar :=
  { start := "S", ruleDict := [("S", [[Symb.tm "a"]]), ("D", [[Symb.nt "D"]])] }

/-- The grammar `S := D; D := D` (start is reachable but unproductive). -/
def gSD : Grammar :=
  { start := "S", ruleDict := [("S", [[Symb.nt "D"]]), ("D", [[Symb.nt "D"]])] }

/-- The grammar `A := ε | "a"` (rules iterated with the ε-rule first). -/
def gA1 : Grammar :=
  { start := "A", ruleDict := [("A", [[], [Symb.tm "a"]])] }

/-- The grammar `A := ε`. -/
def gAeps : Grammar :=
  { start := "A", ruleDict := [("A", [[]])] }

/-- The grammar `S := "a" A; A := ε`. -/
def gSA : Grammar :=
  { start := "S",
    ruleDict := [("S", [[Symb.tm "a", Symb.nt "A"]]), ("A", [[]])] }

/-- The grammar `S := "a"`. -/
def gTerm : Grammar :=
  { start := "S", ruleDict := [("S", [[Symb.tm "a"]])] }

/-- C3: the claim says every nonterminal reachable in `preprocess(G)` is
productive in `G`, and that for `S := "a"; D := D` the nonterminal `D` is
absent from the productions of `preprocess` applied to it.  The shipped code
violates both: `preprocess` discards the pruned grammar `g2` and returns the
original `g`, so `D` is still a key of `preprocess(gS6).ruleDict`, and for
`S := D; D := D` the nonterminal `D` is reachable in `preprocess(gSD)` while
being non-productive in `gSD`. -/
theorem preprocess_keeps_dead_nonterminal :
    (dGet (preprocessF 100 gS6).ruleDict "D").isSome = true ∧
    "D" ∈ reachableF 100 (preprocessF 100 gSD) ∧
    "D" ∉ productiveF 100 gSD := by
  decide

/-- C4: the claim says `Epsilon ∈ FIRST(N) ⇔ N ∈ nullable(G)`.  For the
grammar `A := ε | "a"` the code computes `nullable = {A}` but
`buildFirst` ASSIGNS `firstMap[A] = first(firstMap, rule)` per rule, so the
last rule `"a"` overwrites the ε-rule's contribution and the final
`FIRST(A) = {"a"}` does not contain `Epsilon`. -/
theorem buildFirst_loses_epsilon_of_nullable :
    "A" ∈ nullableF 100 gA1 ∧
    Symb.eps ∉ dGetD (buildFirstF 100 gA1) (Symb.nt "A") [] := by
  decide

/-- C1: the claim says `testSelect(t, N, word)` always returns a boolean,
computed from FIRST/FOLLOW with `followMap` resolving to the predictor's own
field.  In the source `followMap` is a free variable, so whenever
`t ∉ FIRST(word)` and `Epsilon ∈ FIRST(word)` the call raises `NameError`
instead of returning a boolean: here with the predictor of `A := ε`,
`testSelect("$", A, [])` has `FIRST([]) = {ε}` and raises. -/
theorem testSelect_raises_nameError :
    testSelect (mkPredictor 100 gAeps (Symb.tm "$")) (Symb.tm "$") "A" []
      = Except.error PErr.nameError := by
  rfl

/-- `Rule` from `grammar.py`: a left-hand-side nonterminal and an rhs tuple. -/
structure PRule where
  lhs : String
  rhs : List Symb
deriving DecidableEq, Repr

/-- `GrammarSlot` from `parser.py`: a rule with a cursor `index`,
`0 ≤ index ≤ |rhs|`. -/
structure Slot where
  rule : PRule
  index : Nat
deriving DecidableEq, Repr

/-- `GrammarSlot.prefix()`: `rhs[:index]`. -/
def Slot.preSeq (s : Slot) : List Symb := s.rule.rhs.take s.index

/-- `GrammarSlot.suffix()`: `rhs[index:]`. -/
def Slot.sufSeq (s : Slot) : List Symb := s.rule.rhs.drop s.index

/-- `GrammarSlot.subject()`, verbatim from the source:
`self.rule.rhs[self.index] if self.index < len(self) - 1 else None`.
(Note the guard is `index < |rhs| - 1`, not `index < |rhs|`; Python's
`len(self) - 1` is `-1` for the empty rhs and Nat subtraction gives the same
comparison outcomes here, since `index < -1` is false in Python and
`index < 0` is false in Lean.) -/
def Slot.subject (s : Slot) : Option Symb :=
  if s.index < s.rule.rhs.length - 1 then s.rule.rhs.get? s.index else none

/-- `GrammarSlot.update(offset)`: the same slot for offset 0, the advanced
slot when in range, `None` otherwise. -/
def Slot.update (s : Slot) (offset : Nat) : Option Slot :=
  if offset = 0 then some s
  else if s.index + offset ≤ s.rule.rhs.length then some ⟨s.rule, s.index + offset⟩
  else none

/-- `GrammarSlot.pred()`: the symbol at `index - 1`, which must exist and be a
nonterminal (`ValueError` otherwise). -/
def Slot.predSym (s : Slot) : Except PErr String :=
  if s.index = 0 then Except.error PErr.valueError
  else
    match s.rule.rhs.get? (s.index - 1) with
    | some (Symb.nt m) => Except.ok m
    | _ => Except.error PErr.valueError

/-- C9: the claim says `subject()` returns `rhs[index]` whenever
`0 ≤ index < |rhs|`.  The source guard is `index < len(self) - 1`, so for the
slot `A := . "a"` (rhs length 1, index 0 — a position with a symbol at the
cursor) the code returns `None` instead of `Term "a"`. -/
theorem subject_none_at_last_symbol :
    Slot.subject ⟨⟨"A", [Symb.tm "a"]⟩, 0⟩ = none ∧
    (0 : Nat) < (([Symb.tm "a"] : List Symb)).length := by
  constructor
  · rfl
  · decide

/-- `Descriptor` from `parser.py`: `(slot, callIndex, index)` (the Python
non-negativity checks hold by construction over `Nat`). -/
structure Desc where
  slot : Slot
  callIndex : Nat
  index : Nat
deriving DecidableEq, Repr

/-- `CallRecord`: `(symbol, index)` keying the call-return forest. -/
structure CallRec where
  symbol : String
  index : Nat
deriving DecidableEq, Repr

/-- `CallReturnAddress`: `(slot, callIndex)`. -/
structure RetAddr where
  slot : Slot
  callIndex : Nat
deriving DecidableEq, Repr

/-- BSR nodes: `BSRAltNode(label = rule, ...)` and
`BSRTreeNode(label = prefix, ...)`. -/
inductive BSR where
  | alt (label : PRule) (lext pivot rext : Nat)
  | tree (label : List Symb) (lext pivot rext : Nat)
deriving DecidableEq, Repr

/-- `validateBSRNode` from `parser.py`, with the source's check order: the
extent check first, then `node.label[-1]` — which raises `IndexError` when the
label is EMPTY (so the later `len(label) == 0` branch of the source is dead
code), then the tree-node arity check, then the empty/singleton extent
checks. -/
def validateBSR (isTreeNode : Bool) (label : List Symb) (lext pivot rext : Nat) :
    Except PErr Unit :=
  if ¬ (lext ≤ pivot ∧ pivot ≤ rext) then Except.error PErr.valueError
  else
    match label.getLast? with
    | none => Except.error PErr.indexError
    | some lastSym =>
        if isTm lastSym ∧ pivot + 1 ≠ rext then Except.error PErr.valueError
        else if isTreeNode ∧ label.length < 2 then Except.error PErr.valueError
        else if label.length = 0 ∧ ¬ (lext = pivot ∧ pivot = rext) then
          Except.error PErr.valueError
        else if label.length = 1 ∧ lext ≠ pivot then Except.error PErr.valueError
        else Except.ok ()

/-- `GLLParser`'s mutable state: the input (with the appended end marker), the
working and total descriptor sets, the call-return forest `crf`, the
contingent-return set `crs`, and the BSR set. -/
structure PState where
  parseInput : List Symb
  workingSet : List Desc
  totalSet : List Desc
  crf : List (CallRec × List RetAddr)
  crs : List (CallRec × List Nat)
  bsrSet : List BSR
deriving DecidableEq, Repr

/-- `GLLParser.addDesc(desc)`: insert into both `workingSet` and `totalSet`
only when the descriptor is not already in `totalSet`. -/
def addDescF (d : Desc) (s : PState) : PState :=
  if d ∈ s.totalSet then s
  else { s with workingSet := s.workingSet ++ [d], totalSet := s.totalSet ++ [d] }

/-- `GLLParser.bsrAdd(slot, lext, pivot, rext)`: emit an Alt node when the
slot's suffix is empty, a Tree (packed) node when its prefix has length > 1,
nothing otherwise.  Constructing a node runs `validateBSRNode`.  The slot may
be `None` in Python (from `slot.update`), in which case the attribute access
raises. -/
def bsrAddF (oslot : Option Slot) (lext pivot rext : Nat) (s : PState) :
    Except PErr PState :=
  match oslot with
  | none => Except.error PErr.attrError
  | some slot =>
      if (Slot.sufSeq slot).length = 0 then
        match validateBSR false slot.rule.rhs lext pivot rext with
        | Except.error e => Except.error e
        | Except.ok _ =>
            Except.ok { s with bsrSet := pyAdd s.bsrSet (BSR.alt slot.rule lext pivot rext) }
      else if (Slot.preSeq slot).length > 1 then
        match validateBSR true (Slot.preSeq slot) lext pivot rext with
        | Except.error e => Except.error e
        | Except.ok _ =>
            Except.ok { s with bsrSet := pyAdd s.bsrSet (BSR.tree (Slot.preSeq slot) lext pivot rext) }
      else Except.ok s

/-- `GLLParser.getInput(index)` with `allowEnd = True` (as at every call
site): the end terminal at `len(parseInput)`, the token below that, and
`ValueError` beyond. -/
def getInputF (P : Predictor) (s : PState) (index : Nat) : Except PErr Symb :=
  if index = s.parseInput.length then Except.ok P.endTm
  else if index < s.parseInput.length then
    Except.ok (s.parseInput.getD index P.endTm)
  else Except.error PErr.valueError

/-- `GLLParser.ntAdd(nonterm, index)`: for each rhs of the nonterminal whose
`testSelect(parseInput[index], nonterm, rhs)` passes, enqueue the initial
descriptor.  Note the source indexes `self.parseInput[index]` directly
(`IndexError` past the end), not through `getInput`. -/
def ntAddF (P : Predictor) (n : String) (index : Nat) (s : PState) :
    Except PErr PState :=
  match s.parseInput.get? index with
  | none => Except.error PErr.indexError
  | some focus =>
      (dGetD P.grammar.ruleDict n []).foldlM
        (fun st rhs => do
          let b ← testSelect P focus n rhs
          if b then pure (addDescF ⟨⟨⟨n, rhs⟩, 0⟩, index, index⟩ st) else pure st)
        s

/-- `GLLParser.call(slot, callIndex, index)`: look up the call record of
`slot.pred()` at `index`; on first contact, record the return address and
`ntAdd` the callee; otherwise, when the return address is new, replay every
known contingent return position. -/
def callF (P : Predictor) (oslot : Option Slot) (callIndex index : Nat)
    (s : PState) : Except PErr PState :=
  match oslot with
  | none => Except.error PErr.attrError
  | some slot =>
      match Slot.predSym slot with
      | Except.error e => Except.error e
      | Except.ok m =>
          if (dGetD s.crf ⟨m, index⟩ []).length = 0 then
            ntAddF P m index
              { s with crf := dSet s.crf ⟨m, index⟩ [⟨slot, callIndex⟩] }
          else if (⟨slot, callIndex⟩ : RetAddr) ∈ dGetD s.crf ⟨m, index⟩ [] then
            Except.ok s
          else
            List.foldlM
              (fun st retIndex =>
                bsrAddF (some slot) callIndex index retIndex
                  (addDescF ⟨slot, callIndex, retIndex⟩ st))
              { s with crf := (dSet s.crf ⟨m, index⟩
                  (dGetD s.crf ⟨m, index⟩ [] ++ [⟨slot, callIndex⟩])) }
              (dGetD s.crs ⟨m, index⟩ [])

/-- `GLLParser.rtn(sym, callIndex, retIndex)`: record the contingent return
position; when new, enqueue a descriptor and a BSR node for every known
return address of the call record. -/
def rtnF (sym : String) (callIndex retIndex : Nat) (s : PState) :
    Except PErr PState :=
  if retIndex ∈ dGetD s.crs ⟨sym, callIndex⟩ [] then Except.ok s
  else
    List.foldlM
      (fun st ra =>
        bsrAddF (some ra.slot) ra.callIndex callIndex retIndex
          (addDescF ⟨ra.slot, ra.callIndex, retIndex⟩ st))
      { s with crs := (dSet s.crs ⟨sym, callIndex⟩
          (dGetD s.crs ⟨sym, callIndex⟩ [] ++ [retIndex])) }
      (dGetD s.crf ⟨sym, callIndex⟩ [])

/-- The inner `while len(suffix[offset:]) > 0` loop of
`GLLParser.continueParse`.  `remaining` is `suffix[offset:]`.  Returns the
state, `true` when the loop ran to completion (Python's `for ... else`),
`false` on a break (prune or call), and the final offset. -/
def innerLoop (P : Predictor) (slot : Slot) (callIndex descIndex : Nat) :
    List Symb → Nat → PState → Except PErr (PState × Bool × Nat)
  | [], offset, s => Except.ok (s, true, offset)
  | subject :: rest, offset, s =>
      match getInputF P s (descIndex + offset) with
      | Except.error e => Except.error e
      | Except.ok focus =>
          match (if slot.index + offset ≠ 0 then
              testSelect P focus slot.rule.lhs (subject :: rest)
            else Except.ok true) with
          | Except.error e => Except.error e
          | Except.ok proceed =>
              if proceed then
                match subject with
                | Symb.nt _ =>
                    match callF P (Slot.update slot (offset + 1)) callIndex
                        (descIndex + offset) s with
                    | Except.error e => Except.error e
                    | Except.ok s1 => Except.ok (s1, false, offset)
                | Symb.tm _ =>
                    match bsrAddF (Slot.update slot (offset + 1)) callIndex
                        (descIndex + offset) (descIndex + offset + 1) s with
                    | Except.error e => Except.error e
                    | Except.ok s1 =>
                        innerLoop P slot callIndex descIndex rest (offset + 1) s1
                | Symb.eps => innerLoop P slot callIndex descIndex rest (offset + 1) s
              else Except.ok (s, false, offset)

/-- The body of one iteration of `GLLParser.continueParse`'s main loop, after
the descriptor `d` has been popped (so `s.workingSet` no longer holds it):
skip empty-rhs slots; otherwise run the inner loop, and if it completed, test
the focus against `followMap[sym]` and `rtn` on success. -/
def processDesc (P : Predictor) (s : PState) (d : Desc) : Except PErr PState :=
  if d.slot.rule.rhs.length = 0 then Except.ok s
  else
    match innerLoop P d.slot d.callIndex d.index (Slot.sufSeq d.slot) 0 s with
    | Except.error e => Except.error e
    | Except.ok (s1, false, _) => Except.ok s1
    | Except.ok (s1, true, offset) =>
        if ((Slot.sufSeq d.slot).drop offset).length = 0 then
          match getInputF P s1 (d.index + offset) with
          | Except.error e => Except.error e
          | Except.ok focus =>
              if focus ∈ dGetD P.followMap (Symb.nt d.slot.rule.lhs) [] then
                rtnF d.slot.rule.lhs d.callIndex (d.index + offset) s1
              else Except.ok s1
        else Except.ok s1

/-- The observable outcome of running `continueParse`: `out` marks fuel
exhaustion of the embedding (never reached in the concrete evaluations),
`err e n` a Python exception after `n` pops, `ok s r n` a normal return with
final state `s`, return value `r` (`len(workingSet)`) and `n` pops. -/
inductive RunRes where
  | out : RunRes
  | err : PErr → Nat → RunRes
  | ok : PState → Nat → Nat → RunRes
deriving DecidableEq, Repr

/-- Count one more popped descriptor in a run result. -/
def RunRes.addPop : RunRes → RunRes
  | RunRes.out => RunRes.out
  | RunRes.err e n => RunRes.err e (n + 1)
  | RunRes.ok s r n => RunRes.ok s r (n + 1)

/-- The number of descriptors popped in a run result. -/
def RunRes.pops : RunRes → Nat
  | RunRes.out => 0
  | RunRes.err _ n => n
  | RunRes.ok _ _ n => n

/-- `GLLParser.continueParse(steps)`: `while len(workingSet) > 0 and
steps != 0`, decrement positive budgets, pop a descriptor, process it, and
finally return `len(workingSet)`. -/
def continueParseF (P : Predictor) : Nat → Int → PState → RunRes
  | 0, _, _ => RunRes.out
  | fuel + 1, steps, s =>
      match s.workingSet with
      | [] => RunRes.ok s 0 0
      | d :: rest =>
          if steps = 0 then RunRes.ok s s.workingSet.length 0
          else
            let steps1 := if steps > 0 then steps - 1 else steps
            match processDesc P { s with workingSet := rest } d with
            | Except.error e => RunRes.err e 1
            | Except.ok s1 => (continueParseF P fuel steps1 s1).addPop

/-- The state-resetting prefix of `GLLParser.parse(parseInput, steps)`: append
the end marker, clear all sets, and seed via `ntAdd(start, 0)`. -/
def parseSeed (P : Predictor) (tokens : List Symb) : Except PErr PState :=
  ntAddF P P.grammar.start 0
    { parseInput := tokens ++ [P.endTm], workingSet := [], totalSet := [],
      crf := [], crs := [], bsrSet := [] }

/-- `GLLParser.parse(parseInput, steps)`: seed, then `continueParse(steps)`. -/
def parseRunF (P : Predictor) (fuel : Nat) (tokens : List Symb) (steps : Int) :
    RunRes :=
  match parseSeed P tokens with
  | Except.error e => RunRes.err e 0
  | Except.ok s => continueParseF P fuel steps s

/-- Whether a seed attempt succeeded. -/
def seedOk (e : Except PErr PState) : Bool :=
  match e with
  | Except.ok _ => true
  | Except.error _ => false

/-- C2: the claim says that for the grammar `A := ε`, `parse([], -1)`
terminates with `Alt(A := ε, 0, 0, 0)` in the BSR set.  In the source the run
never gets there: seeding calls `testSelect($, A, ())`, whose
`FIRST(()) = {ε}` makes it evaluate the unbound `followMap` and raise
`NameError` (0 descriptors processed).  Moreover an `Alt` node with an empty
rule cannot even be constructed: `validateBSRNode` evaluates `label[-1]` and
raises `IndexError` on an empty label, so no `ok` run could contain the
claimed node. -/
theorem parse_epsilon_rule_raises :
    parseRunF (mkPredictor 100 gAeps (Symb.tm "$")) 50 [] (-1)
      = RunRes.err PErr.nameError 0 ∧
    validateBSR false [] 0 0 0 = Except.error PErr.indexError := by
  constructor
  · rfl
  · rfl

/-- C5: the claim says `continueParse(-1)` always returns in finite time with
an empty worklist.  For the grammar `S := "a" A; A := ε` on input `"ab"`,
seeding succeeds (one descriptor enqueued), but processing it reaches the
predictive gate `testSelect(b, S, (A,))` whose `FIRST((A,)) = {ε}` evaluates
the unbound `followMap`: the loop raises `NameError` instead of returning. -/
theorem continueParse_raises_nameError :
    seedOk (parseSeed (mkPredictor 100 gSA (Symb.tm "$"))
      [Symb.tm "a", Symb.tm "b"]) = true ∧
    parseRunF (mkPredictor 100 gSA (Symb.tm "$")) 50 [Symb.tm "a", Symb.tm "b"] (-1)
      = RunRes.err PErr.nameError 1 := by
  constructor
  · rfl
  · rfl

theorem mem_pyAdd {α : Type} [DecidableEq α] (l : List α) (a x : α) :
    x ∈ pyAdd l a ↔ x ∈ l ∨ x = a := by
  unfold pyAdd
  by_cases h : a ∈ l
  · simp only [if_pos h]
    constructor
    · exact Or.inl
    · rintro (hx | rfl)
      · exact hx
      · exact h
  · simp [if_neg h]

theorem mem_pyUnion {α : Type} [DecidableEq α] (xs : List α) :
    ∀ (l : List α) (x : α), x ∈ pyUnion l xs ↔ x ∈ l ∨ x ∈ xs := by
  induction xs with
  | nil => intro l x; simp [pyUnion]
  | cons a rest ih =>
      intro l x
      have h1 : pyUnion l (a :: rest) = pyUnion (pyAdd l a) rest := rfl
      rw [h1, ih, mem_pyAdd]
      simp only [List.mem_cons]
      tauto

theorem mem_pyDiff {α : Type} [DecidableEq α] (l xs : List α) (x : α) :
    x ∈ pyDiff l xs ↔ x ∈ l ∧ x ∉ xs := by
  simp [pyDiff, List.mem_filter]

theorem dGetIns_fst {κ ν : Type} [DecidableEq κ] (m : List (κ × ν)) (k : κ) (d : ν) :
    (dGetIns m k d).1 = dGetD m k d := by
  unfold dGetIns dGetD
  cases h : dGet m k <;> simp [h]

theorem dGet_append_one {κ ν : Type} [DecidableEq κ] (m : List (κ × ν)) (k k' : κ)
    (d : ν) (h : dGet m k' = none) :
    dGet (m ++ [(k, d)]) k' = if k = k' then some d else none := by
  induction m with
  | nil => simp [dGet]
  | cons p rest ih =>
      by_cases hp : p.1 = k'
      · simp [dGet, hp] at h
      · simp [dGet, hp] at h ⊢
        exact ih h

theorem dGet_append_keep {κ ν : Type} [DecidableEq κ] (m : List (κ × ν)) (k k' : κ)
    (d v : ν) (h : dGet m k' = some v) :
    dGet (m ++ [(k, d)]) k' = some v := by
  induction m with
  | nil => simp [dGet] at h
  | cons p rest ih =>
      by_cases hp : p.1 = k'
      · simp [dGet, hp] at h ⊢
        exact h
      · simp [dGet, hp] at h ⊢
        exact ih h

theorem dGetD_dGetIns {κ ν : Type} [DecidableEq κ] (m : List (κ × ν)) (k k' : κ)
    (d : ν) : dGetD (dGetIns m k d).2 k' d = dGetD m k' d := by
  unfold dGetIns
  cases hk : dGet m k with
  | some v => rfl
  | none =>
      show dGetD (m ++ [(k, d)]) k' d = dGetD m k' d
      unfold dGetD
      cases h' : dGet m k' with
      | some v => rw [dGet_append_keep m k k' d v h']
      | none =>
          rw [dGet_append_one m k k' d h']
          by_cases hkk : k = k' <;> simp [hkk]

/-- The spec's description of `FIRST(word)` ("walk left-to-right; for each
symbol add its per-symbol FIRST minus Epsilon; stop when a symbol whose FIRST
does not contain Epsilon is hit, or when a terminal is hit, in which case that
terminal is added; if the walk completes without stopping, add Epsilon"),
written as a direct recursion over the word against an abstract per-symbol
FIRST lookup `f`. -/
def firstSpecWalk (f : Symb → List Symb) : List Symb → List Symb
  | [] => [Symb.eps]
  | Symb.tm t :: _ => [Symb.tm t]
  | Symb.nt m :: rest =>
      if Symb.eps ∈ f (Symb.nt m) then
        pyUnion (pyDiff (f (Symb.nt m)) [Symb.eps]) (firstSpecWalk f rest)
      else pyDiff (f (Symb.nt m)) [Symb.eps]
  | Symb.eps :: rest =>
      if Symb.eps ∈ f Symb.eps then
        pyUnion (pyDiff (f Symb.eps) [Symb.eps]) (firstSpecWalk f rest)
      else pyDiff (f Symb.eps) [Symb.eps]

theorem firstSpecWalk_congr (f g : Symb → List Symb) (h : ∀ s, f s = g s)
    (w : List Symb) : firstSpecWalk f w = firstSpecWalk g w := by
  have hfg : f = g := funext h
  rw [hfg]

theorem firstDgo_mem (word : List Symb) :
    ∀ (fm : FMap) (acc : List Symb) (x : Symb),
      x ∈ (firstDgo fm acc word).1 ↔
        x ∈ acc ∨ x ∈ firstSpecWalk (fun s => dGetD fm s []) word := by
  induction word with
  | nil => intro fm acc x; simp [firstDgo, firstSpecWalk, mem_pyAdd]
  | cons sym rest ih =>
      intro fm acc x
      cases sym with
      | tm t => simp [firstDgo, firstSpecWalk, mem_pyAdd]
      | nt m =>
          show x ∈ (if Symb.eps ∈ (dGetIns fm (Symb.nt m) []).1 then
              firstDgo (dGetIns fm (Symb.nt m) []).2
                (pyUnion acc (pyDiff (dGetIns fm (Symb.nt m) []).1 [Symb.eps])) rest
            else (pyUnion acc (pyDiff (dGetIns fm (Symb.nt m) []).1 [Symb.eps]),
              (dGetIns fm (Symb.nt m) []).2)).1 ↔ _
          rw [dGetIns_fst]
          by_cases he : Symb.eps ∈ dGetD fm (Symb.nt m) []
          · rw [if_pos he, ih, mem_pyUnion, mem_pyDiff,
              firstSpecWalk_congr _ (fun s => dGetD fm s [])
                (fun s => dGetD_dGetIns fm (Symb.nt m) s [])]
            show _ ↔ x ∈ acc ∨ x ∈ firstSpecWalk (fun s => dGetD fm s []) (Symb.nt m :: rest)
            rw [show firstSpecWalk (fun s => dGetD fm s []) (Symb.nt m :: rest)
                = pyUnion (pyDiff (dGetD fm (Symb.nt m) []) [Symb.eps])
                    (firstSpecWalk (fun s => dGetD fm s []) rest) from by
              simp [firstSpecWalk, if_pos he]]
            rw [mem_pyUnion, mem_pyDiff]
            tauto
          · rw [if_neg he]
            show x ∈ pyUnion acc (pyDiff (dGetD fm (Symb.nt m) []) [Symb.eps]) ↔ _
            rw [mem_pyUnion,
              show firstSpecWalk (fun s => dGetD fm s []) (Symb.nt m :: rest)
                = pyDiff (dGetD fm (Symb.nt m) []) [Symb.eps] from by
              simp [firstSpecWalk, if_neg he]]
      | eps =>
          show x ∈ (if Symb.eps ∈ (dGetIns fm Symb.eps []).1 then
              firstDgo (dGetIns fm Symb.eps []).2
                (pyUnion acc (pyDiff (dGetIns fm Symb.eps []).1 [Symb.eps])) rest
            else (pyUnion acc (pyDiff (dGetIns fm Symb.eps []).1 [Symb.eps]),
              (dGetIns fm Symb.eps []).2)).1 ↔ _
          rw [dGetIns_fst]
          by_cases he : Symb.eps ∈ dGetD fm Symb.eps []
          · rw [if_pos he, ih, mem_pyUnion, mem_pyDiff,
              firstSpecWalk_congr _ (fun s => dGetD fm s [])
                (fun s => dGetD_dGetIns fm Symb.eps s [])]
            rw [show firstSpecWalk (fun s => dGetD fm s []) (Symb.eps :: rest)
                = pyUnion (pyDiff (dGetD fm Symb.eps []) [Symb.eps])
                    (firstSpecWalk (fun s => dGetD fm s []) rest) from by
              simp [firstSpecWalk, if_pos he]]
            rw [mem_pyUnion, mem_pyDiff]
            tauto
          · rw [if_neg he]
            show x ∈ pyUnion acc (pyDiff (dGetD fm Symb.eps []) [Symb.eps]) ↔ _
            rw [mem_pyUnion,
              show firstSpecWalk (fun s => dGetD fm s []) (Symb.eps :: rest)
                = pyDiff (dGetD fm Symb.eps []) [Symb.eps] from by
              simp [firstSpecWalk, if_neg he]]

/-- C7: `first(firstMap, word)` computes exactly the set described by the
spec's left-to-right walk (membership-wise, over any FIRST map): add each
symbol's per-symbol FIRST minus Epsilon, stop at the first symbol without
Epsilon in its FIRST or at the first terminal (adding that terminal), and add
Epsilon when the walk completes. -/
theorem first_matches_spec_walk (fm : FMap) (word : List Symb) (x : Symb) :
    x ∈ firstF fm word ↔ x ∈ firstSpecWalk (fun s => dGetD fm s []) word := by
  have h := firstDgo_mem word fm [] x
  simpa [firstF] using h

theorem cpF_zero (P : Predictor) (fuel : Nat) (s : PState) :
    continueParseF P (fuel + 1) 0 s = RunRes.ok s s.workingSet.length 0 := by
  cases h : s.workingSet with
  | nil => simp [continueParseF, h]
  | cons d rest => simp [continueParseF, h]

theorem cpF_pops_le (P : Predictor) :
    ∀ (fuel : Nat) (b : Int) (s : PState), 0 ≤ b →
      ((continueParseF P fuel b s).pops : Int) ≤ b := by
  intro fuel
  induction fuel with
  | zero =>
      intro b s hb
      simpa [continueParseF, RunRes.pops] using hb
  | succ n ih =>
      intro b s hb
      cases hw : s.workingSet with
      | nil => simpa [continueParseF, hw, RunRes.pops] using hb
      | cons d rest =>
          by_cases hb0 : b = 0
          · simp [continueParseF, hw, hb0, RunRes.pops]
          · have hbpos : 0 < b := lt_of_le_of_ne hb (Ne.symm hb0)
            cases hp : processDesc P { s with workingSet := rest } d with
            | error e =>
                have : continueParseF P (n + 1) b s = RunRes.err e 1 := by
                  simp [continueParseF, hw, hb0, hp]
                rw [this]
                simpa [RunRes.pops] using hbpos
            | ok s2 =>
                have hrec := ih (b - 1) s2 (by omega)
                have hstep : continueParseF P (n + 1) b s
                    = (continueParseF P n (b - 1) s2).addPop := by
                  simp [continueParseF, hw, hb0, hp, hbpos]
                rw [hstep]
                cases hr : continueParseF P n (b - 1) s2 <;>
                  rw [hr] at hrec <;>
                  simp [RunRes.addPop, RunRes.pops] at hrec ⊢ <;>
                  omega

theorem cpF_ok_ret (P : Predictor) :
    ∀ (fuel : Nat) (b : Int) (s s1 : PState) (r p : Nat),
      continueParseF P fuel b s = RunRes.ok s1 r p → r = s1.workingSet.length := by
  intro fuel
  induction fuel with
  | zero => intro b s s1 r p h; simp [continueParseF] at h
  | succ n ih =>
      intro b s s1 r p h
      cases hw : s.workingSet with
      | nil =>
          simp [continueParseF, hw] at h
          obtain ⟨h1, h2, _⟩ := h
          rw [← h1, ← h2, hw]
          rfl
      | cons d rest =>
          by_cases hb0 : b = 0
          · simp [continueParseF, hw, hb0] at h
            obtain ⟨h1, h2, _⟩ := h
            rw [← h1, ← h2, hw]
            rfl
          · cases hp : processDesc P { s with workingSet := rest } d with
            | error e => simp [continueParseF, hw, hb0, hp] at h
            | ok s2 =>
                have hstep : continueParseF P (n + 1) b s
                    = (continueParseF P n (if b > 0 then b - 1 else b) s2).addPop := by
                  simp [continueParseF, hw, hb0, hp]
                rw [hstep] at h
                cases hr : continueParseF P n (if b > 0 then b - 1 else b) s2 <;>
                  rw [hr] at h <;> simp [RunRes.addPop] at h
                obtain ⟨h1, h2, _⟩ := h
                rw [← h1, ← h2]
                exact ih _ _ _ _ _ hr

theorem cpF_neg_done (P : Predictor) :
    ∀ (fuel : Nat) (b : Int) (s s1 : PState) (r p : Nat), b < 0 →
      continueParseF P fuel b s = RunRes.ok s1 r p →
      s1.workingSet = [] ∧ r = 0 := by
  intro fuel
  induction fuel with
  | zero => intro b s s1 r p hb h; simp [continueParseF] at h
  | succ n ih =>
      intro b s s1 r p hb h
      cases hw : s.workingSet with
      | nil =>
          simp [continueParseF, hw] at h
          obtain ⟨h1, h2, _⟩ := h
          constructor
          · rw [← h1, hw]
          · omega
      | cons d rest =>
          have hb0 : ¬ b = 0 := by omega
          have hbneg : ¬ b > 0 := by omega
          cases hp : processDesc P { s with workingSet := rest } d with
          | error e => simp [continueParseF, hw, hb0, hp] at h
          | ok s2 =>
              have hstep : continueParseF P (n + 1) b s
                  = (continueParseF P n b s2).addPop := by
                simp [continueParseF, hw, hb0, hp, hbneg]
              rw [hstep] at h
              cases hr : continueParseF P n b s2 <;>
                rw [hr] at h <;> simp [RunRes.addPop] at h
              obtain ⟨h1, h2, _⟩ := h
              have := ih b s2 _ _ _ hb hr
              rw [← h1, ← h2]
              exact this

/-- C8: budget semantics of `continueParse(budget)`.  Budget 0 is a noop: the
call returns the current worklist size and the state (hence every engine set)
unchanged.  For `b ≥ 0`, any run — normal or aborted by an exception — pops
at most `b` descriptors, and a normal return yields the remaining worklist
size.  For `b < 0` the loop ignores the budget and a normal return happens
only with an empty worklist (and return value 0). -/
theorem continueParse_budget_law (P : Predictor) :
    (∀ (fuel : Nat) (s : PState),
        continueParseF P (fuel + 1) 0 s = RunRes.ok s s.workingSet.length 0) ∧
    (∀ (fuel : Nat) (b : Int) (s : PState), 0 ≤ b →
        ((continueParseF P fuel b s).pops : Int) ≤ b) ∧
    (∀ (fuel : Nat) (b : Int) (s s1 : PState) (r p : Nat),
        continueParseF P fuel b s = RunRes.ok s1 r p →
        r = s1.workingSet.length) ∧
    (∀ (fuel : Nat) (b : Int) (s s1 : PState) (r p : Nat), b < 0 →
        continueParseF P fuel b s = RunRes.ok s1 r p →
        s1.workingSet = [] ∧ r = 0) :=
  ⟨cpF_zero P, cpF_pops_le P, cpF_ok_ret P, cpF_neg_done P⟩

/-- Concrete predictor for the grammar `S := "a"`. -/
def wP : Predictor := mkPredictor 100 gTerm (Symb.tm "$")

/-- The descriptor seeded by `parse(["a"], ...)` under `wP`. -/
def wD0 : Desc :=
  { slot := { rule := { lhs := "S", rhs := [Symb.tm "a"] }, index := 0 },
    callIndex := 0, index := 0 }

/-- The engine state right after `parse(["a"], 0)` seeds the worklist. -/
def wS0 : PState :=
  { parseInput := [Symb.tm "a", Symb.tm "$"], workingSet := [wD0],
    totalSet := [wD0], crf := [], crs := [], bsrSet := [] }

/-- The engine state after the single descriptor of `wS0` is processed. -/
def wS2 : PState :=
  { parseInput := [Symb.tm "a", Symb.tm "$"], workingSet := [], totalSet := [wD0],
    crf := [], crs := [({ symbol := "S", index := 0 }, [1])],
    bsrSet := [BSR.alt { lhs := "S", rhs := [Symb.tm "a"] } 0 0 1] }

/-- Witness for the budget law at a concrete engine state. -/
theorem continueParse_budget_law_witness :
    continueParseF wP 4 0 wS0 = RunRes.ok wS0 wS0.workingSet.length 0 ∧
    ((continueParseF wP 6 2 wS0).pops : Int) ≤ 2 ∧
    (wS2.workingSet = [] ∧ (0 : Nat) = 0) :=
  ⟨(continueParse_budget_law wP).1 3 wS0,
   (continueParse_budget_law wP).2.1 6 2 wS0 (by decide),
   (continueParse_budget_law wP).2.2.2 6 (-1) wS0 wS2 0 1 (by decide) (by rfl)⟩

/-- The descriptor-set invariant of the engine: the working set is contained
in the total set, and both are duplicate-free (Python sets). -/
def EngInv (s : PState) : Prop :=
  (∀ d ∈ s.workingSet, d ∈ s.totalSet) ∧
  s.workingSet.Nodup ∧ s.totalSet.Nodup

/-- How every engine operation relates a state to its successor: the total
set only grows, a descriptor newly present in the working set was absent from
the old total set, and the invariant is preserved. -/
def PresRel (s s1 : PState) : Prop :=
  (∀ x ∈ s.totalSet, x ∈ s1.totalSet) ∧
  (∀ x ∈ s1.workingSet, x ∈ s.workingSet ∨ x ∉ s.totalSet) ∧
  (EngInv s → EngInv s1)

theorem presRel_refl (s : PState) : PresRel s s :=
  ⟨fun _ hx => hx, fun _ hx => Or.inl hx, id⟩

theorem presRel_trans {s t u : PState} (h1 : PresRel s t) (h2 : PresRel t u) :
    PresRel s u := by
  obtain ⟨t1, t2, t3⟩ := h1
  obtain ⟨u1, u2, u3⟩ := h2
  refine ⟨fun x hx => u1 x (t1 x hx), ?_, fun hi => u3 (t3 hi)⟩
  intro x hx
  rcases u2 x hx with hx2 | hx2
  · exact t2 x hx2
  · exact Or.inr (fun hs => hx2 (t1 x hs))

theorem addDescF_pres (d : Desc) (s : PState) : PresRel s (addDescF d s) := by
  unfold addDescF
  by_cases h : d ∈ s.totalSet
  · rw [if_pos h]; exact presRel_refl s
  · rw [if_neg h]
    refine ⟨?_, ?_, ?_⟩
    · intro x hx; simp only [List.mem_append]; exact Or.inl hx
    · intro x hx
      simp only [List.mem_append, List.mem_singleton] at hx
      rcases hx with hx | rfl
      · exact Or.inl hx
      · exact Or.inr h
    · rintro ⟨hsub, hwnd, htnd⟩
      have hdw : d ∉ s.workingSet := fun hd => h (hsub d hd)
      refine ⟨?_, ?_, ?_⟩
      · intro x hx
        simp only [List.mem_append, List.mem_singleton] at hx ⊢
        rcases hx with hx | rfl
        · exact Or.inl (hsub x hx)
        · exact Or.inr rfl
      · rw [List.nodup_append]
        exact ⟨hwnd, List.nodup_singleton d,
          fun x hx hx1 => hdw ((List.mem_singleton.mp hx1) ▸ hx)⟩
      · rw [List.nodup_append]
        exact ⟨htnd, List.nodup_singleton d,
          fun x hx hx1 => h ((List.mem_singleton.mp hx1) ▸ hx)⟩

theorem presRel_of_fields {s s1 : PState}
    (hw : s1.workingSet = s.workingSet) (ht : s1.totalSet = s.totalSet) :
    PresRel s s1 := by
  refine ⟨?_, ?_, ?_⟩
  · intro x hx; rw [ht]; exact hx
  · intro x hx; rw [hw] at hx; exact Or.inl hx
  · intro hi
    obtain ⟨h1, h2, h3⟩ := hi
    exact ⟨by rw [hw, ht]; exact h1, by rw [hw]; exact h2, by rw [ht]; exact h3⟩

theorem except_bind_ok {α β : Type} (x : Except PErr α) (k : α → Except PErr β)
    (b : β) : (x >>= k) = Except.ok b ↔ ∃ a, x = Except.ok a ∧ k a = Except.ok b := by
  cases x <;> simp [Bind.bind, Except.bind]

theorem bsrAddF_pres (o : Option Slot) (l p r : Nat) (s s1 : PState)
    (h : bsrAddF o l p r s = Except.ok s1) : PresRel s s1 := by
  cases o with
  | none => exact Except.noConfusion (show Except.error PErr.attrError = Except.ok s1 from h)
  | some slot =>
      simp only [bsrAddF] at h
      split at h
      · split at h
        · exact Except.noConfusion h
        · simp only [Except.ok.injEq] at h
          exact presRel_of_fields (by rw [← h]) (by rw [← h])
      · split at h
        · split at h
          · exact Except.noConfusion h
          · simp only [Except.ok.injEq] at h
            exact presRel_of_fields (by rw [← h]) (by rw [← h])
        · simp only [Except.ok.injEq] at h
          exact presRel_of_fields (by rw [← h]) (by rw [← h])

theorem foldlM_pres {β : Type} (f : PState → β → Except PErr PState)
    (H : ∀ (b : β) (st st1 : PState), f st b = Except.ok st1 → PresRel st st1) :
    ∀ (l : List β) (st st1 : PState),
      List.foldlM f st l = Except.ok st1 → PresRel st st1 := by
  intro l
  induction l with
  | nil =>
      intro st st1 h
      simp only [List.foldlM_nil] at h
      cases h
      exact presRel_refl st
  | cons b rest ih =>
      intro st st1 h
      rw [List.foldlM_cons, except_bind_ok] at h
      obtain ⟨st2, hf, hr⟩ := h
      exact presRel_trans (H b st st2 hf) (ih st2 st1 hr)

theorem ntAddF_pres (P : Predictor) (n : String) (i : Nat) (s s1 : PState)
    (h : ntAddF P n i s = Except.ok s1) : PresRel s s1 := by
  unfold ntAddF at h
  cases hg : s.parseInput.get? i with
  | none => rw [hg] at h; exact absurd h (by simp)
  | some focus =>
      rw [hg] at h
      refine foldlM_pres _ ?_ _ _ _ h
      intro rhs st st1 hf
      rw [except_bind_ok] at hf
      obtain ⟨b, _, hif⟩ := hf
      cases b with
      | false =>
          simp only [Bool.false_eq_true, if_false, pure, Except.pure,
            Except.ok.injEq] at hif
          cases hif
          exact presRel_refl st
      | true =>
          simp only [if_true, pure, Except.pure, Except.ok.injEq] at hif
          cases hif
          exact addDescF_pres _ st

theorem presRel_crf (s : PState) (c : List (CallRec × List RetAddr)) :
    PresRel s { s with crf := c } := presRel_of_fields rfl rfl

theorem presRel_crs (s : PState) (c : List (CallRec × List Nat)) :
    PresRel s { s with crs := c } := presRel_of_fields rfl rfl

theorem callF_pres (P : Predictor) (o : Option Slot) (ci i : Nat) (s s1 : PState)
    (h : callF P o ci i s = Except.ok s1) : PresRel s s1 := by
  cases o with
  | none => exact Except.noConfusion (show Except.error PErr.attrError = Except.ok s1 from h)
  | some slot =>
      simp only [callF] at h
      split at h
      · exact Except.noConfusion h
      · split at h
        · exact presRel_trans (presRel_crf s _) (ntAddF_pres P _ i _ s1 h)
        · split at h
          · cases h
            exact presRel_refl s
          · refine presRel_trans (presRel_crf s _) (foldlM_pres _ ?_ _ _ _ h)
            intro retIndex st st1 hf
            exact presRel_trans (addDescF_pres _ st) (bsrAddF_pres _ _ _ _ _ _ hf)

theorem rtnF_pres (sym : String) (ci ri : Nat) (s s1 : PState)
    (h : rtnF sym ci ri s = Except.ok s1) : PresRel s s1 := by
  unfold rtnF at h
  split at h
  · cases h
    exact presRel_refl s
  · refine presRel_trans (presRel_crs s _) (foldlM_pres _ ?_ _ _ _ h)
    intro ra st st1 hf
    exact presRel_trans (addDescF_pres _ st) (bsrAddF_pres _ _ _ _ _ _ hf)

theorem innerLoop_pres (P : Predictor) (slot : Slot) (ci di : Nat) :
    ∀ (rem : List Symb) (offset : Nat) (s s1 : PState) (c : Bool) (o : Nat),
      innerLoop P slot ci di rem offset s = Except.ok (s1, c, o) → PresRel s s1 := by
  intro rem
  induction rem with
  | nil =>
      intro offset s s1 c o h
      simp only [innerLoop, Except.ok.injEq, Prod.mk.injEq] at h
      obtain ⟨h1, _⟩ := h
      rw [← h1]
      exact presRel_refl s
  | cons subject rest ih =>
      intro offset s s1 c o h
      simp only [innerLoop] at h
      split at h
      · exact Except.noConfusion h
      · split at h
        · exact Except.noConfusion h
        · split at h
          · split at h
            · split at h
              · exact Except.noConfusion h
              · rename_i s2 hcall
                simp only [Except.ok.injEq, Prod.mk.injEq] at h
                obtain ⟨h1, _⟩ := h
                rw [← h1]
                exact callF_pres P _ ci (di + offset) s s2 hcall
            · split at h
              · exact Except.noConfusion h
              · rename_i s2 hbsr
                exact presRel_trans (bsrAddF_pres _ _ _ _ s s2 hbsr)
                  (ih (offset + 1) s2 s1 c o h)
            · exact ih (offset + 1) s s1 c o h
          · simp only [Except.ok.injEq, Prod.mk.injEq] at h
            obtain ⟨h1, _⟩ := h
            rw [← h1]
            exact presRel_refl s

theorem processDesc_pres (P : Predictor) (s : PState) (d : Desc) (s1 : PState)
    (h : processDesc P s d = Except.ok s1) : PresRel s s1 := by
  unfold processDesc at h
  split at h
  · cases h
    exact presRel_refl s
  · split at h
    · exact Except.noConfusion h
    · cases h
      exact innerLoop_pres P d.slot d.callIndex d.index _ 0 _ _ _ _ (by assumption)
    · rename_i s2 offset hil
      have hpre : PresRel s s2 :=
        innerLoop_pres P d.slot d.callIndex d.index _ 0 s s2 true offset hil
      split at h
      · split at h
        · exact Except.noConfusion h
        · split at h
          · exact presRel_trans hpre (rtnF_pres _ _ _ s2 s1 h)
          · cases h
            exact hpre
      · cases h
        exact hpre

/-- The state after popping descriptor `d` from the working set (Python
`workingSet.pop()` when it yields `d`). -/
def popState (s : PState) (d : Desc) : PState :=
  { s with workingSet := s.workingSet.erase d }

theorem popState_pres (s : PState) (d : Desc) : PresRel s (popState s d) := by
  refine ⟨fun x hx => hx, ?_, ?_⟩
  · intro x hx
    exact Or.inl (List.mem_of_mem_erase hx)
  · rintro ⟨hsub, hwnd, htnd⟩
    exact ⟨fun x hx => hsub x (List.mem_of_mem_erase hx), hwnd.erase d, htnd⟩

/-- One iteration of `continueParse`'s main loop, labelled by the popped
descriptor: `d` is in the working set, and processing it from the popped
state succeeds with state `s1`.  (Python's `set.pop` extracts an arbitrary
element, so the popped descriptor is existentially quantified in `EStep`.) -/
inductive EStepD (P : Predictor) : PState → Desc → PState → Prop where
  | mk (s : PState) (d : Desc) (s1 : PState) (hmem : d ∈ s.workingSet)
      (hproc : processDesc P (popState s d) d = Except.ok s1) : EStepD P s d s1

/-- One main-loop iteration, whichever descriptor gets popped. -/
def EStep (P : Predictor) (s s1 : PState) : Prop := ∃ d, EStepD P s d s1

/-- States reachable by main-loop iterations. -/
def Reach (P : Predictor) : PState → PState → Prop :=
  Relation.ReflTransGen (EStep P)

theorem estepD_pres {P : Predictor} {s : PState} {d : Desc} {s1 : PState}
    (h : EStepD P s d s1) : PresRel s s1 := by
  cases h with
  | mk hmem hproc =>
      exact presRel_trans (popState_pres s d) (processDesc_pres P _ d s1 hproc)

theorem reach_pres {P : Predictor} {s s1 : PState} (h : Reach P s s1) :
    PresRel s s1 := by
  induction h with
  | refl => exact presRel_refl s
  | tail _ hstep ih =>
      obtain ⟨d, hd⟩ := hstep
      exact presRel_trans ih (estepD_pres hd)

theorem parseSeed_inv (P : Predictor) (toks : List Symb) (s0 : PState)
    (h : parseSeed P toks = Except.ok s0) : EngInv s0 := by
  have h0 : EngInv
      { parseInput := toks ++ [P.endTm], workingSet := [], totalSet := [],
        crf := [], crs := [], bsrSet := [] } := by
    refine ⟨?_, ?_, ?_⟩ <;> simp
  exact (ntAddF_pres P P.grammar.start 0 _ s0 h).2.2 h0

theorem estepD_popped {P : Predictor} {s1 : PState} {d : Desc} {s2 : PState}
    (hinv : EngInv s1) (h : EStepD P s1 d s2) :
    d ∈ s2.totalSet ∧ d ∉ s2.workingSet := by
  cases h with
  | mk hmem hproc =>
      obtain ⟨hsub, hwnd, htnd⟩ := hinv
      have hdts : d ∈ (popState s1 d).totalSet := hsub d hmem
      have hdws : d ∉ (popState s1 d).workingSet := by
        intro hc
        exact absurd rfl ((hwnd.mem_erase_iff.mp hc).1)
      have hp := processDesc_pres P _ d s2 hproc
      refine ⟨hp.1 d hdts, ?_⟩
      intro hw
      rcases hp.2.1 d hw with hx | hx
      · exact hdws hx
      · exact hx hdts

theorem presRel_keeps_popped {s s1 : PState} (h : PresRel s s1) (d : Desc)
    (h1 : d ∈ s.totalSet) (h2 : d ∉ s.workingSet) :
    d ∈ s1.totalSet ∧ d ∉ s1.workingSet := by
  refine ⟨h.1 d h1, ?_⟩
  intro hw
  rcases h.2.1 d hw with hx | hx
  · exact h2 hx
  · exact hx h1

/-- C6: descriptor uniqueness of the worklist engine.  From any state seeded
by `parse`, every reachable state satisfies `workingSet ⊆ totalSet`; and once
a descriptor `d` is popped (step `s1 → s2`), in every state reachable from
`s2` the descriptor stays in `totalSet` and out of `workingSet`, so no later
iteration can pop `d` again — `addDesc` inserts only descriptors absent from
`totalSet`. -/
theorem descriptor_uniqueness (P : Predictor) (toks : List Symb)
    (s0 s1 : PState) (d : Desc) (s2 s3 : PState)
    (hseed : parseSeed P toks = Except.ok s0)
    (h01 : Reach P s0 s1)
    (h12 : EStepD P s1 d s2)
    (h23 : Reach P s2 s3) :
    (∀ x ∈ s1.workingSet, x ∈ s1.totalSet) ∧
    d ∈ s3.totalSet ∧ d ∉ s3.workingSet ∧
    ∀ s4 : PState, ¬ EStepD P s3 d s4 := by
  have hinv0 : EngInv s0 := parseSeed_inv P toks s0 hseed
  have hinv1 : EngInv s1 := (reach_pres h01).2.2 hinv0
  have hq2 := estepD_popped hinv1 h12
  have hq3 := presRel_keeps_popped (reach_pres h23) d hq2.1 hq2.2
  refine ⟨hinv1.1, hq3.1, hq3.2, ?_⟩
  intro s4 hc
  cases hc with
  | mk hmem hproc => exact hq3.2 hmem

/-- A tiny heap of Python `set` objects, for stating mutation facts: a list
of cells, each holding a set (as a list of elements); a reference is a cell
index. -/
def readH {α : Type} (h : List (List α)) (r : Nat) : List α := h.getD r []

/-- In-place mutation of the set stored in cell `r`. -/
def writeH {α : Type} (h : List (List α)) (r : Nat) (v : List α) :
    List (List α) := h.set r v

/-- The `while check(size, newsize)` loop of `closure_f` in `grammar.py`
(`check(s1, s2)` is `s1 < s2` for both flavours): each iteration applies the
step function to the set in the copy's cell and writes the result back in
place, then loops on the new sizes. -/
def closLoop {α γ : Type} (fVal : List α → γ → List α) (ctx : γ) :
    Nat → Int → Int → List (List α) → Nat → List (List α)
  | 0, _, _, h, _ => h
  | fuel + 1, size, newsize, h, cref =>
      if size < newsize then
        closLoop fVal ctx fuel newsize
          ((fVal (readH h cref) ctx).length : Int)
          (writeH h cref (fVal (readH h cref) ctx)) cref
      else h

/-- `closure(f, inc)`'s returned `closure_f(s, g)` from `grammar.py`:
`s = deepcopy(s)` allocates a fresh cell holding a copy of the argument set,
the sizes are initialised per the `inc` flag (`(-1, len(s))` for increasing,
`(len(s), len(s)+1)` for decreasing), and the loop then iterates on the copy.
The step function is modelled by its value-level effect `fVal` on the set it
is given (the source's step functions mutate only their argument set).
Returns the final heap and the reference of the copy. -/
def closureRun {α γ : Type} (fVal : List α → γ → List α) (inc : Bool) (ctx : γ)
    (fuel : Nat) (h : List (List α)) (sref : Nat) : List (List α) × Nat :=
  let v0 := readH h sref
  let sz : Int × Int :=
    if inc then (-1, (v0.length : Int)) else ((v0.length : Int), (v0.length : Int) + 1)
  (closLoop fVal ctx fuel sz.1 sz.2 (h ++ [v0]) h.length, h.length)

theorem readH_writeH_ne {α : Type} (h : List (List α)) (i j : Nat) (v : List α)
    (hij : j ≠ i) : readH (writeH h i v) j = readH h j := by
  unfold readH writeH
  unfold List.getD
  rw [List.get?_set_ne v h (Ne.symm hij)]

theorem closLoop_readH {α γ : Type} (fVal : List α → γ → List α) (ctx : γ) :
    ∀ (fuel : Nat) (size newsize : Int) (h : List (List α)) (cref sref : Nat),
      sref ≠ cref →
      readH (closLoop fVal ctx fuel size newsize h cref) sref = readH h sref := by
  intro fuel
  induction fuel with
  | zero => intro size newsize h cref sref hne; rfl
  | succ n ih =>
      intro size newsize h cref sref hne
      unfold closLoop
      by_cases hc : size < newsize
      · rw [if_pos hc, ih _ _ _ _ _ hne, readH_writeH_ne _ _ _ _ hne]
      · rw [if_neg hc]

theorem readH_append_lt {α : Type} (h : List (List α)) (v : List α) (sref : Nat)
    (hr : sref < h.length) : readH (h ++ [v]) sref = readH h sref := by
  unfold readH
  unfold List.getD
  rw [List.get?_append hr]

/-- C10: the `closure(f, inc)` combinator never mutates the argument set: the
returned `closure_f` first takes a deep copy (a fresh cell) and the loop only
writes to that copy's cell, so after the call the argument's cell holds its
original value — for every step effect `fVal`, every flavour flag `inc`,
every context and every iteration count. -/
theorem closure_does_not_mutate {α γ : Type} (fVal : List α → γ → List α)
    (inc : Bool) (ctx : γ) (fuel : Nat) (h : List (List α)) (sref : Nat)
    (hr : sref < h.length) :
    readH (closureRun fVal inc ctx fuel h sref).1 sref = readH h sref := by
  have hne : sref ≠ h.length := Nat.ne_of_lt hr
  show readH (closLoop fVal ctx fuel _ _ (h ++ [readH h sref]) h.length) sref
      = readH h sref
  rw [closLoop_readH fVal ctx fuel _ _ _ _ _ hne,
    readH_append_lt h _ sref hr]

/-- Witness: a concrete heap with one set cell, a strictly growing step. -/
theorem closure_does_not_mutate_witness :
    readH (closureRun (fun v (_ : Unit) => pyAdd v 1) true () 5 [[5]] 0).1 0
      = readH [[5]] 0 :=
  closure_does_not_mutate (fun v (_ : Unit) => pyAdd v 1) true () 5 [[5]] 0
    (by decide)

/-- Witness for descriptor uniqueness on the concrete run of `S := "a"` over
input `"a"`: the seeded state `wS0`, with its only descriptor `wD0` popped
and processed into `wS2`. -/
theorem descriptor_uniqueness_witness :
    (∀ x ∈ wS0.workingSet, x ∈ wS0.totalSet) ∧
    wD0 ∈ wS2.totalSet ∧ wD0 ∉ wS2.workingSet ∧
    ∀ s4 : PState, ¬ EStepD wP wS2 wD0 s4 :=
  descriptor_uniqueness wP [Symb.tm "a"] wS0 wS0 wD0 wS2 wS2
    (by rfl)
    Relation.ReflTransGen.refl
    (EStepD.mk wS0 wD0 wS2 (by decide) (by rfl))
    Relation.ReflTransGen.refl
